import Mathlib

/-!
Verification of the `when-ts` tick engine and its temporal history manager.

This file shallowly embeds the current implementation:
  * `HistoryManager` is translated from `src/src/historyManager.ts`
    (the snapshot with input-source support);
  * `StateMachine` is translated from the matching `stateMachine.ts`
    (`src/unnamed/part_002`), whose constructor signature matches that
    history manager, and whose behaviour the newest test suite exercises;
  * the `priority` decorator metadata of the index module
    (`src/unnamed/part_004`) is carried as a field on rules; the engine
    itself never reads it, exactly as in the source.

JavaScript objects are modelled as partial maps from a field type to
integer values (`Obj kappa`); `Object.assign(a, b)` is `jsAssign a b`
(fields of `b` win).  `undefined` is `none`.  The numeric arguments that
may be `Infinity` in the source (`rewind`'s tick argument and the history
`limit`) are modelled as `Option Int` with `none` standing for positive
infinity.  Actions are embedded as a snapshot-indexed list of machine
calls (`exit`, `history.rewind`) performed by the body, followed by the
returned partial update; conditions receive the current state and the
tick counter (in the source they receive the machine object, from which
the tick counter is the datum the shipped rules consult).
-/

namespace When

/-- A JavaScript object with integer-valued fields: a partial map. -/
abbrev Obj (kappa : Type) := kappa → Option Int

/-- The empty object `Object.create(null)`. -/
def emptyObj {kappa : Type} : Obj kappa := fun _ => none

/-- `Object.assign(a, b)` (value semantics): fields present in `b` win. -/
def jsAssign {kappa : Type} (a b : Obj kappa) : Obj kappa :=
  fun k => match b k with
  | some v => some v
  | none => a k

/-- `Object.assign(a, b)` where `b` may be `undefined` (absent source). -/
def jsAssignOpt {kappa : Type} (a : Obj kappa) : Option (Obj kappa) → Obj kappa
  | some b => jsAssign a b
  | none => a

/-- JS truthiness of a possibly-undefined number: defined and nonzero. -/
def jsTruthy : Option Int → Bool
  | some v => v != 0
  | none => false

/-- JS `<` on numbers where `none` stands for `+Infinity`. -/
def numLt : Option Int → Option Int → Bool
  | none, _ => false
  | some _, none => true
  | some a, some b => a < b

/-- Replace the last element of a list in place (no-op on `[]`),
    modelling `Object.assign(records[records.length - 1], x)`. -/
def modifyLast {α : Type} (f : α → α) : List α → List α
  | [] => []
  | [a] => [f a]
  | a :: b :: rest => a :: modifyLast f (b :: rest)

/-- The list remaining after `xs.splice(start, deleteCount)`:
    the start index is clamped to the length, the delete count to the
    available suffix (and below by zero). -/
def jsSpliceRemain {α : Type} (xs : List α) (start : Nat) (deleteCount : Int) : List α :=
  xs.take (min start xs.length) ++
    xs.drop (min start xs.length
      + (min deleteCount ((xs.length : Int) - (min start xs.length))).toNat)

/-- Input polling policy (`'once' | 'always' |` custom callback).  The
    custom callback receives the current state; in the source it also
    receives the machine instance, which the embedding omits. -/
inductive InputPolicy (kappa : Type) where
  | once : InputPolicy kappa
  | always : InputPolicy kappa
  | custom (f : Obj kappa → Bool) : InputPolicy kappa

/-- An `@input` mapping: state key, source property key, policy and the
    optional transform (in the source the transform is applied even to an
    `undefined` polled value, hence `Option Int → Option Int`). -/
structure InputMapping (kappa : Type) where
  key : kappa
  propertyKey : kappa
  policy : InputPolicy kappa
  transform : Option (Option Int → Option Int)

/-- The state of a `HistoryManager` (fields of the TS class; `_maxHistory`
    is `maxHistory` with `none` for the default `Infinity`). -/
structure HistoryManager (kappa : Type) where
  inputSource : Option (kappa → Option Int)
  inputMappings : List (InputMapping kappa)
  initialState : Obj kappa
  previousInputs : Obj kappa
  maxHistory : Option Int
  tick : Nat
  nextState : Obj kappa
  records : List (Obj kappa)

variable {kappa : Type} [DecidableEq kappa]

/-- `this.currentState`: `records[records.length - 1]`, which is
    `undefined` on an empty record list; reachable states always have a
    non-empty record list (proved below), so the embedding defaults the
    unreachable case to the empty object. -/
def HistoryManager.currentState (h : HistoryManager kappa) : Obj kappa :=
  (h.records.getLast?).getD emptyObj

/-- `this.previousState`: `records[records.length - 2]` (or `undefined`). -/
def HistoryManager.previousStateOpt (h : HistoryManager kappa) : Option (Obj kappa) :=
  if 2 ≤ h.records.length then h.records.get? (h.records.length - 2) else none

/-- `_collectInputs(force)` as a function of the fields it reads. -/
def collectInputs (srcOpt : Option (kappa → Option Int)) (maps : List (InputMapping kappa))
    (prev : Obj kappa) (tick : Nat) (cur : Obj kappa) (force : Bool) : Obj kappa :=
  match srcOpt with
  | none => emptyObj
  | some src =>
    maps.foldl (fun inputs im =>
      let polled : Option Int :=
        match im.policy with
        | .always => src im.propertyKey
        | .once =>
          if force then src im.propertyKey
          else if tick = 1 then src im.propertyKey else none
        | .custom f =>
          if force then src im.propertyKey
          else if 1 ≤ tick ∧ f cur then src im.propertyKey
          else if (prev im.key).isSome then
            (if jsTruthy (prev im.key) then prev im.key else cur im.key)
          else none
      let value : Option Int :=
        match im.transform with
        | some t => t polled
        | none => polled
      match value with
      | some v => fun k => if k = im.key then some v else inputs k
      | none => inputs)
      (jsAssign emptyObj prev)

/-- `this._collectInputs(force)`. -/
def HistoryManager.collect (h : HistoryManager kappa) (force : Bool) : Obj kappa :=
  collectInputs h.inputSource h.inputMappings h.previousInputs h.tick h.currentState force

/-- `_beginTick(patchCurrent)`. -/
def HistoryManager.beginTick (h : HistoryManager kappa) (patchCurrent : Bool) :
    HistoryManager kappa :=
  let inputsOpt : Option (Obj kappa) :=
    match h.inputSource with
    | some _ => some (jsAssign (jsAssign emptyObj h.previousInputs) (h.collect patchCurrent))
    | none => none
  let prev' := match inputsOpt with
    | some i => i
    | none => h.previousInputs
  let recs' := if patchCurrent then
      match inputsOpt with
      | some i => modifyLast (fun r => jsAssign r i) h.records
      | none => h.records
    else h.records
  let h' := { h with previousInputs := prev', records := recs' }
  let ns := jsAssignOpt (jsAssignOpt (jsAssignOpt emptyObj h'.previousStateOpt)
    h'.records.getLast?) inputsOpt
  { h' with nextState := ns }

/-- The eviction step of `_nextTick`: when the record count exceeds the
    limit, `records.splice(0, records.length - maxHistory)`. -/
def evict {α : Type} (mh : Option Int) (l : List α) : List α :=
  match mh with
  | none => l
  | some lv =>
    if lv < (l.length : Int) then l.drop ((l.length : Int) - lv).toNat else l

/-- `_nextTick()`: push the next-state buffer as a record, evict from the
    front past the limit, then `_beginTick(this._tick++ <= 1)`. -/
def HistoryManager.nextTickFn (h : HistoryManager kappa) : HistoryManager kappa :=
  let pr : Obj kappa × List (Obj kappa) :=
    if h.tick = 0 then
      match h.records.getLast? with
      | some r => (jsAssign h.nextState r, h.records.dropLast)
      | none => (h.nextState, h.records)
    else (h.nextState, h.records)
  let recs2 := evict h.maxHistory (pr.2 ++ [pr.1])
  HistoryManager.beginTick { h with records := recs2, tick := h.tick + 1 }
    (decide (h.tick ≤ 1))

/-- The constructor.  The input source and the mappings are retained only
    when both are supplied, the initial state is copied, the first
    next-state buffer is the initial state merged with a forced input
    collection, and `_nextTick()` runs once. -/
def HistoryManager.mkNew (init : Obj kappa)
    (inputs : Option ((kappa → Option Int) × List (InputMapping kappa))) :
    HistoryManager kappa :=
  let srcOpt := match inputs with
    | some p => some p.1
    | none => none
  let maps := match inputs with
    | some p => p.2
    | none => []
  let base : HistoryManager kappa :=
    { inputSource := srcOpt, inputMappings := maps,
      initialState := jsAssign emptyObj init, previousInputs := emptyObj,
      maxHistory := none, tick := 0,
      nextState := jsAssign (jsAssign emptyObj (jsAssign emptyObj init))
        (collectInputs srcOpt maps emptyObj 0 emptyObj true),
      records := [] }
  base.nextTickFn

/-- `_mutateTick(p)`: drop every input-mapped key from the update, then
    `Object.assign` it onto the next-state buffer. -/
def HistoryManager.mutateTickFn (h : HistoryManager kappa) (p : Obj kappa) :
    HistoryManager kappa :=
  let p' : Obj kappa :=
    fun k => if h.inputMappings.any (fun im => decide (im.key = k)) then none else p k
  { h with nextState := jsAssign h.nextState p' }

/-- The record list a successful `rewind` retains: everything before the
    target index, re-seeded from the initial state when that is empty,
    then mutated in place and patched with freshly collected inputs. -/
def rewindKept (h : HistoryManager kappa) (targetN : Nat)
    (mutate : Option (Obj kappa)) : List (Obj kappa) :=
  let kept0 := h.records.take targetN
  let kept1 := if kept0.isEmpty then [jsAssign emptyObj h.initialState] else kept0
  let kept2 := match mutate with
    | some mu => modifyLast (fun r => jsAssign r mu) kept1
    | none => kept1
  match h.inputSource with
  | some _ =>
    modifyLast (fun r =>
      jsAssign r (HistoryManager.collect { h with records := kept2 } false)) kept2
  | none => kept2

/-- The clamped tick of `rewind`:
    `t = Math.max(1, Math.min(this.tick - this._records.length, t))`,
    where the argument `none` is the `Infinity` that `reset` passes
    (`Math.min` against the finite `tick - records.length` removes the
    infinity immediately). -/
def rewindT (h : HistoryManager kappa) (t0 : Option Int) : Int :=
  max 1 (match t0 with
    | none => (h.tick : Int) - h.records.length
    | some v => min ((h.tick : Int) - h.records.length) v)

/-- The splice start index of `rewind`: `target = this.tick - t - 1`. -/
def rewindTarget (h : HistoryManager kappa) (t0 : Option Int) : Int :=
  (h.tick : Int) - rewindT h t0 - 1

/-- `rewind(t, mutate?)`: when `records[target]` exists, discard the
    records from `target` on, re-seed or mutate or input-patch the new
    last record, set the tick counter, and rebuild the next-state buffer;
    otherwise return `false` — no change at all. -/
def HistoryManager.rewindFn (h : HistoryManager kappa) (t0 : Option Int)
    (mutate : Option (Obj kappa)) : HistoryManager kappa :=
  if 0 ≤ rewindTarget h t0 ∧ (rewindTarget h t0).toNat < h.records.length then
    { h with records := rewindKept h (rewindTarget h t0).toNat mutate,
             tick := (rewindT h t0).toNat,
             nextState := jsAssign emptyObj
               (((rewindKept h (rewindTarget h t0).toNat mutate).getLast?).getD emptyObj) }
  else h

/-- `clear()`: `this.rewind(1)`. -/
def HistoryManager.clearFn (h : HistoryManager kappa) : HistoryManager kappa :=
  h.rewindFn (some 1) none

/-- The coercion at the head of the `limit` setter:
    `if (limit < 1) limit = 1;`. -/
def coerceLimit (l0 : Option Int) : Option Int :=
  if numLt l0 (some 1) then some 1 else l0

/-- The record trimming of the `limit` setter: when the (coerced) new
    limit is below the current one, `records.splice(1, length - limit)`. -/
def limitRecords (h : HistoryManager kappa) (l : Option Int) : List (Obj kappa) :=
  if numLt l h.maxHistory then
    match l with
    | some lv => jsSpliceRemain h.records 1 ((h.records.length : Int) - lv)
    | none => h.records
  else h.records

/-- The `limit` setter: coerce values below 1 to 1, and when shrinking,
    `records.splice(1, records.length - limit)`. -/
def HistoryManager.setLimit (h : HistoryManager kappa) (l0 : Option Int) :
    HistoryManager kappa :=
  { h with maxHistory := coerceLimit l0, records := limitRecords h (coerceLimit l0) }

/-- A machine call an action body may perform before returning. -/
inductive MachineCall (kappa : Type) where
  | callExit (arg : Option (Obj kappa)) : MachineCall kappa
  | callRewind (t : Option Int) (mutate : Option (Obj kappa)) : MachineCall kappa

/-- One entry of the `_program` map: the (already combined) activation
    condition, the body (as the calls it performs and the update it
    returns, both functions of the snapshot it receives), and the
    priority recorded by the `priority` decorator — metadata that the
    engine never consults. -/
structure Rule (kappa : Type) where
  cond : Obj kappa → Nat → Bool
  calls : Obj kappa → List (MachineCall kappa)
  ret : Obj kappa → Option (Obj kappa)
  priority : Int

/-- The `StateMachine`: the `_program` map in insertion order, the
    history manager, and `_exitState`. -/
structure StateMachine (kappa : Type) where
  program : List (Rule kappa)
  history : HistoryManager kappa
  exitState : Option (Obj kappa)

/-- `exit(exitState?)` of the current snapshot: every call (re)sets the
    exit state — to the explicit argument merged over the current state,
    or to the current state itself. -/
def StateMachine.exitFn (m : StateMachine kappa) (arg : Option (Obj kappa)) :
    StateMachine kappa :=
  match arg with
  | some es => { m with exitState := some (jsAssign m.history.currentState es) }
  | none => { m with exitState := some m.history.currentState }

/-- Perform one machine call from an action body. -/
def applyCall (m : StateMachine kappa) : MachineCall kappa → StateMachine kappa
  | .callExit a => m.exitFn a
  | .callRewind t mu => { m with history := m.history.rewindFn t mu }

/-- Perform an action body's machine calls in order. -/
def applyCalls (m : StateMachine kappa) (cs : List (MachineCall kappa)) :
    StateMachine kappa :=
  cs.foldl applyCall m

/-- The `for (let [cond, body] of this._program)` loop of `step()`.  The
    `Bool` result records whether the loop returned early (the mid-tick
    rewind abort), in which case `step()` skips `_nextTick()`. -/
def stepLoop (ct : Nat) (m : StateMachine kappa) (fired : Nat) :
    List (Rule kappa) → StateMachine kappa × Nat × Bool
  | [] => (m, fired, false)
  | r :: rest =>
    if m.history.tick != ct && m.exitState.isNone then (m, max 1 fired, true)
    else if m.exitState.isSome then (m, fired, false)
    else if r.cond m.history.currentState m.history.tick then
      let snapshot := m.history.currentState
      let m1 := applyCalls m (r.calls snapshot)
      let m2 := match r.ret snapshot with
        | some p => { m1 with history := m1.history.mutateTickFn p }
        | none => m1
      stepLoop ct m2 (fired + 1) rest
    else stepLoop ct m fired rest

/-- The opening of `step()`:
    `if (this.history.tick < 1) this._history._nextTick();`. -/
def stepPre (m : StateMachine kappa) : StateMachine kappa :=
  if m.history.tick < 1 then { m with history := m.history.nextTickFn } else m

/-- The closing of `step()`: on a mid-tick abort, return the fired count
    as-is (no commit); otherwise `this._history._nextTick()` and, when
    nothing fired, record the current state as the exit state. -/
def stepPost (mfb : StateMachine kappa × Nat × Bool) : StateMachine kappa × Nat :=
  match mfb with
  | (mp, fired, true) => (mp, fired)
  | (mp, fired, false) =>
    let m2 := { mp with history := mp.history.nextTickFn }
    let m3 := if fired = 0 then { m2 with exitState := some m2.history.currentState }
      else m2
    (m3, fired)

/-- `step()`: returns the stepped machine and the fired count. -/
def StateMachine.stepFn (m : StateMachine kappa) : StateMachine kappa × Nat :=
  stepPost (stepLoop (stepPre m).history.tick (stepPre m) 0 (stepPre m).program)

/-- `run(forever)` with explicit fuel (`none` when the fuel runs out
    before the loop exits). -/
def StateMachine.runAux (forever : Bool) :
    Nat → StateMachine kappa → Option (StateMachine kappa)
  | 0, _ => none
  | fuel + 1, m =>
    if m.exitState.isSome then some m
    else if ¬forever ∧ m.stepFn.2 = 0 then some m.stepFn.1
    else StateMachine.runAux forever fuel m.stepFn.1

/-- The value `run` returns once the loop has exited:
    `this._exitState || this._history.currentState`. -/
def StateMachine.runResult (m : StateMachine kappa) : Obj kappa :=
  m.exitState.getD m.history.currentState

/-- Build a machine from a program, an initial state and optional inputs
    (the constructor builds the history manager and starts with no exit
    state). -/
def StateMachine.mkNew (program : List (Rule kappa)) (init : Obj kappa)
    (inputs : Option ((kappa → Option Int) × List (InputMapping kappa))) :
    StateMachine kappa :=
  { program := program, history := HistoryManager.mkNew init inputs, exitState := none }

/-! ### Derived notions used to state the claims -/

/-- The updates produced by the rules whose condition fires on a given
    snapshot and tick, in program (evaluation) order; rules that fire but
    return no update contribute nothing. -/
def firedUpdates (cur : Obj kappa) (tick : Nat) (rules : List (Rule kappa)) :
    List (Obj kappa) :=
  rules.filterMap (fun r => if r.cond cur tick then r.ret cur else none)

/-- Apply a list of action updates to the next-state buffer, in order. -/
def applyUpdates (h : HistoryManager kappa) (ups : List (Obj kappa)) :
    HistoryManager kappa :=
  ups.foldl HistoryManager.mutateTickFn h

/-- One committed tick: buffer some updates, then `advance` (`_nextTick`). -/
def commitStep (h : HistoryManager kappa) (ups : List (Obj kappa)) :
    HistoryManager kappa :=
  (applyUpdates h ups).nextTickFn

/-- A sequence of committed ticks. -/
def commitRun (h : HistoryManager kappa) (l : List (List (Obj kappa))) :
    HistoryManager kappa :=
  l.foldl commitStep h

/-- The committed state of each tick of a commit sequence: the value the
    history manager pushes as the new record at that tick's `advance`. -/
def commitTrace (h : HistoryManager kappa) :
    List (List (Obj kappa)) → List (Obj kappa)
  | [] => []
  | ups :: rest => (applyUpdates h ups).nextState :: commitTrace (commitStep h ups) rest

/-- `min` against a possibly-infinite limit (`none` is `Infinity`). -/
def minN : Option Int → Nat → Nat
  | none, n => n
  | some v, n => min v.toNat n

/-- Stable insertion keeping descending priority: the new rule goes in
    front of the first strictly-smaller priority. -/
def insertDesc (r : Rule kappa) : List (Rule kappa) → List (Rule kappa)
  | [] => [r]
  | s :: rest =>
    if s.priority < r.priority then r :: s :: rest else s :: insertDesc r rest

/-- Modelled from the spec: the rule ordering of §4.1 step 3 — descending
    priority, registration order among equal priorities (a stable
    descending sort).  The implementation has no such ordering pass; this
    definition exists to compare the implementation against the spec. -/
def orderByPriorityDesc (l : List (Rule kappa)) : List (Rule kappa) :=
  l.foldl (fun acc r => insertDesc r acc) []

/-- Replace a rule's priority metadata. -/
def Rule.withPriority (r : Rule kappa) (p : Int) : Rule kappa :=
  { r with priority := p }

/-- Reassign every rule's priority metadata. -/
def StateMachine.withPriorities (m : StateMachine kappa) (f : Rule kappa → Int) :
    StateMachine kappa :=
  { m with program := m.program.map (fun r => r.withPriority (f r)) }

/-- Replace a machine's program list (helper for priority-irrelevance). -/
def setProg (p : List (Rule kappa)) (m : StateMachine kappa) : StateMachine kappa :=
  { m with program := p }

/-- Whether a field is input-mapped in a history manager. -/
def isInputKey (h : HistoryManager kappa) (k : kappa) : Bool :=
  h.inputMappings.any (fun im => decide (im.key = k))

/-- The history-manager states reachable through its public protocol:
    construction, buffered writes, commits, rewinds, clears and limit
    assignments. -/
inductive HMReachable : HistoryManager kappa → Prop where
  | construct (init : Obj kappa)
      (inputs : Option ((kappa → Option Int) × List (InputMapping kappa))) :
      HMReachable (HistoryManager.mkNew init inputs)
  | mutate (h : HistoryManager kappa) (p : Obj kappa) :
      HMReachable h → HMReachable (h.mutateTickFn p)
  | advance (h : HistoryManager kappa) :
      HMReachable h → HMReachable h.nextTickFn
  | rew (h : HistoryManager kappa) (t : Option Int) (mu : Option (Obj kappa)) :
      HMReachable h → HMReachable (h.rewindFn t mu)
  | clr (h : HistoryManager kappa) :
      HMReachable h → HMReachable h.clearFn
  | lim (h : HistoryManager kappa) (l : Option Int) :
      HMReachable h → HMReachable (h.setLimit l)

/-! ### Concrete instances for witnesses and counterexamples

The field type is `Fin 4`; fields are referred to by index. -/

/-- A one-field object. -/
def objS (k : Fin 4) (v : Int) : Obj (Fin 4) :=
  fun j => if j = k then some v else none

/-- A two-field object. -/
def obj2 (k1 : Fin 4) (v1 : Int) (k2 : Fin 4) (v2 : Int) : Obj (Fin 4) :=
  fun j => if j = k1 then some v1 else if j = k2 then some v2 else none

/-- One committed tick with a single buffered update (demo helper). -/
def commit1 (h : HistoryManager (Fin 4)) (u : Obj (Fin 4)) : HistoryManager (Fin 4) :=
  (h.mutateTickFn u).nextTickFn

/-- Demo rule: always fires, writes field 0 to 1, priority 0. -/
def ruleW1 : Rule (Fin 4) :=
  { cond := fun _ _ => true, calls := fun _ => [], ret := fun _ => some (objS 0 1),
    priority := 0 }

/-- Demo rule: always fires, writes field 0 to 2, priority 5. -/
def ruleW2 : Rule (Fin 4) :=
  { cond := fun _ _ => true, calls := fun _ => [], ret := fun _ => some (objS 0 2),
    priority := 5 }

/-- Demo machine with two always-firing writers of field 0 (registration
    order `ruleW1` then `ruleW2`, priorities 0 then 5). -/
def machTwoWriters : StateMachine (Fin 4) :=
  StateMachine.mkNew [ruleW1, ruleW2] (objS 0 0) none

/-- Demo rule that never fires. -/
def ruleNever : Rule (Fin 4) :=
  { cond := fun _ _ => false, calls := fun _ => [], ret := fun _ => none, priority := 0 }

/-- Demo machine whose single rule never fires. -/
def machQuiescent : StateMachine (Fin 4) :=
  StateMachine.mkNew [ruleNever] (objS 0 7) none

/-- Demo rule: always fires, writes field 2 to 1. -/
def ruleIncA : Rule (Fin 4) :=
  { cond := fun _ _ => true, calls := fun _ => [], ret := fun _ => some (objS 2 1),
    priority := 0 }

/-- Demo rule: fires on tick 2, rewinds to tick 1 and then returns an
    update writing field 3 to 9. -/
def ruleRewinder : Rule (Fin 4) :=
  { cond := fun _ t => t == 2, calls := fun _ => [.callRewind (some 1) none],
    ret := fun _ => some (objS 3 9), priority := 0 }

/-- Demo machine for the mid-tick rewind claim: an incrementing rule
    followed by a rewinding rule that is the last rule of the program. -/
def machRewind : StateMachine (Fin 4) :=
  StateMachine.mkNew [ruleIncA, ruleRewinder] (obj2 2 0 3 0) none

/-- Demo history: limit 2, then four committed ticks writing 1,2,3,4 to
    field 0 (tick reaches 5, the retained window holds values 3 and 4). -/
def histLimited : HistoryManager (Fin 4) :=
  commit1 (commit1 (commit1 (commit1
    ((HistoryManager.mkNew (objS 0 0) none).setLimit (some 2)) (objS 0 1))
    (objS 0 2)) (objS 0 3)) (objS 0 4)

/-- Demo history: unbounded limit, three committed ticks writing 1,2,3 to
    field 0 (records hold values 0,1,2,3). -/
def histUnbounded : HistoryManager (Fin 4) :=
  commit1 (commit1 (commit1 (HistoryManager.mkNew (objS 0 0) none) (objS 0 1))
    (objS 0 2)) (objS 0 3)

/-- Demo input source: property 1 polls as 42. -/
def srcDemo : Fin 4 → Option Int := fun k => if k = 1 then some 42 else none

/-- Demo input mapping: field 1 polled from property 1 on every tick. -/
def mapDemo : InputMapping (Fin 4) :=
  { key := 1, propertyKey := 1, policy := .always, transform := none }

/-- Demo history with an input source mapping field 1. -/
def histWithInput : HistoryManager (Fin 4) :=
  HistoryManager.mkNew (objS 0 0) (some (srcDemo, [mapDemo]))

/-- Demo machine with an empty program (for the `exit` claims). -/
def machEmpty : StateMachine (Fin 4) :=
  StateMachine.mkNew [] (objS 0 0) none

/-! ### Helper lemmas -/

set_option linter.unusedSectionVars false

theorem modifyLast_length {α : Type} (f : α → α) (l : List α) :
    (modifyLast f l).length = l.length := by
  induction l with
  | nil => rfl
  | cons a t ih =>
    cases t with
    | nil => rfl
    | cons b t' => simpa [modifyLast] using ih

theorem modifyLast_ne_nil {α : Type} (f : α → α) (l : List α) (h : l ≠ []) :
    modifyLast f l ≠ [] := by
  intro he
  apply h
  have := modifyLast_length f l
  rw [he] at this
  exact List.length_eq_zero.mp this.symm

theorem getLast?_cons_of_ne_nil {α : Type} (a : α) (l : List α) (h : l ≠ []) :
    (a :: l).getLast? = l.getLast? := by
  cases l with
  | nil => exact absurd rfl h
  | cons b t => exact List.getLast?_cons_cons

theorem modifyLast_getLast? {α : Type} (f : α → α) (l : List α) :
    (modifyLast f l).getLast? = l.getLast?.map f := by
  induction l with
  | nil => rfl
  | cons a t ih =>
    cases t with
    | nil => rfl
    | cons b t' =>
      rw [modifyLast, List.getLast?_cons_cons,
        getLast?_cons_of_ne_nil _ _ (modifyLast_ne_nil f (b :: t') (by simp))]
      exact ih

theorem getLast?_drop_concat {α : Type} (l : List α) (x : α) (d : Nat)
    (hd : d ≤ l.length) : ((l ++ [x]).drop d).getLast? = some x := by
  rw [List.drop_append_of_le_length hd]
  rw [List.getLast?_concat]

theorem mutateTickFn_records (h : HistoryManager kappa) (p : Obj kappa) :
    (h.mutateTickFn p).records = h.records := rfl

theorem applyUpdates_records (h : HistoryManager kappa) (ups : List (Obj kappa)) :
    (applyUpdates h ups).records = h.records := by
  induction ups generalizing h with
  | nil => rfl
  | cons u t ih => simpa [applyUpdates, List.foldl_cons] using ih (h.mutateTickFn u)

theorem applyUpdates_tick (h : HistoryManager kappa) (ups : List (Obj kappa)) :
    (applyUpdates h ups).tick = h.tick := by
  induction ups generalizing h with
  | nil => rfl
  | cons u t ih => simpa [applyUpdates, List.foldl_cons] using ih (h.mutateTickFn u)

theorem applyUpdates_maxHistory (h : HistoryManager kappa) (ups : List (Obj kappa)) :
    (applyUpdates h ups).maxHistory = h.maxHistory := by
  induction ups generalizing h with
  | nil => rfl
  | cons u t ih => simpa [applyUpdates, List.foldl_cons] using ih (h.mutateTickFn u)

theorem applyUpdates_inputSource (h : HistoryManager kappa) (ups : List (Obj kappa)) :
    (applyUpdates h ups).inputSource = h.inputSource := by
  induction ups generalizing h with
  | nil => rfl
  | cons u t ih => simpa [applyUpdates, List.foldl_cons] using ih (h.mutateTickFn u)

theorem applyUpdates_inputMappings (h : HistoryManager kappa) (ups : List (Obj kappa)) :
    (applyUpdates h ups).inputMappings = h.inputMappings := by
  induction ups generalizing h with
  | nil => rfl
  | cons u t ih => simpa [applyUpdates, List.foldl_cons] using ih (h.mutateTickFn u)

theorem applyUpdates_initialState (h : HistoryManager kappa) (ups : List (Obj kappa)) :
    (applyUpdates h ups).initialState = h.initialState := by
  induction ups generalizing h with
  | nil => rfl
  | cons u t ih => simpa [applyUpdates, List.foldl_cons] using ih (h.mutateTickFn u)

theorem applyUpdates_previousInputs (h : HistoryManager kappa) (ups : List (Obj kappa)) :
    (applyUpdates h ups).previousInputs = h.previousInputs := by
  induction ups generalizing h with
  | nil => rfl
  | cons u t ih => simpa [applyUpdates, List.foldl_cons] using ih (h.mutateTickFn u)

theorem applyUpdates_nextState_of_no_maps (h : HistoryManager kappa)
    (ups : List (Obj kappa)) (hmaps : h.inputMappings = []) (k : kappa) :
    (applyUpdates h ups).nextState k =
      match (ups.filterMap (fun p => p k)).getLast? with
      | some v => some v
      | none => h.nextState k := by
  induction ups generalizing h with
  | nil => simp [applyUpdates]
  | cons u t ih =>
    have hrec := ih (h.mutateTickFn u) (by simpa [HistoryManager.mutateTickFn] using hmaps)
    have hns : (h.mutateTickFn u).nextState k =
        match u k with
        | some v => some v
        | none => h.nextState k := by
      simp [HistoryManager.mutateTickFn, jsAssign, hmaps]
    rw [show applyUpdates h (u :: t) = applyUpdates (h.mutateTickFn u) t from rfl]
    rw [hrec, hns]
    rw [List.filterMap_cons]
    cases hu : u k with
    | none => rfl
    | some v =>
      cases ht : t.filterMap (fun p => p k) with
      | nil => simp
      | cons b t' =>
        rw [getLast?_cons_of_ne_nil v (b :: t') (by simp)]
        cases hx : (b :: t').getLast? with
        | none => simp at hx
        | some w => simp

theorem applyUpdates_nextState_of_inputKey (h : HistoryManager kappa)
    (ups : List (Obj kappa)) (k : kappa) (hk : isInputKey h k = true) :
    (applyUpdates h ups).nextState k = h.nextState k := by
  induction ups generalizing h with
  | nil => rfl
  | cons u t ih =>
    have hk' : isInputKey (h.mutateTickFn u) k = true := by
      simpa [isInputKey, HistoryManager.mutateTickFn] using hk
    have hrec := ih (h.mutateTickFn u) hk'
    rw [show applyUpdates h (u :: t) = applyUpdates (h.mutateTickFn u) t from rfl]
    rw [hrec]
    simp only [HistoryManager.mutateTickFn, jsAssign]
    rw [show (h.inputMappings.any fun im => decide (im.key = k)) = true from hk]
    simp

theorem nextTickFn_tick (h : HistoryManager kappa) :
    h.nextTickFn.tick = h.tick + 1 := rfl

theorem nextTickFn_maxHistory (h : HistoryManager kappa) :
    h.nextTickFn.maxHistory = h.maxHistory := rfl

theorem nextTickFn_inputSource (h : HistoryManager kappa) :
    h.nextTickFn.inputSource = h.inputSource := rfl

theorem nextTickFn_inputMappings (h : HistoryManager kappa) :
    h.nextTickFn.inputMappings = h.inputMappings := rfl

theorem nextTickFn_initialState (h : HistoryManager kappa) :
    h.nextTickFn.initialState = h.initialState := rfl

theorem nextTickFn_previousInputs_no_input (h : HistoryManager kappa)
    (hsrc : h.inputSource = none) :
    h.nextTickFn.previousInputs = h.previousInputs := by
  unfold HistoryManager.nextTickFn HistoryManager.beginTick
  simp [hsrc]

theorem evict_eq_drop {α : Type} (mh : Option Int) (l : List α)
    (hm : ∀ v, mh = some v → 1 ≤ v) :
    evict mh l = l.drop (l.length - minN mh l.length) := by
  cases mh with
  | none => simp [evict, minN]
  | some lv =>
    have h1 := hm lv rfl
    simp only [evict]
    by_cases hlt : lv < (l.length : Int)
    · rw [if_pos hlt]
      have h2 : ((l.length : Int) - lv).toNat = l.length - minN (some lv) l.length := by
        simp only [minN]
        omega
      rw [h2]
    · rw [if_neg hlt]
      have h2 : l.length - minN (some lv) l.length = 0 := by
        simp only [minN]
        omega
      rw [h2, List.drop_zero]

theorem nextTickFn_records_no_input (h : HistoryManager kappa)
    (hsrc : h.inputSource = none) (htick : 1 ≤ h.tick)
    (hmax : ∀ v, h.maxHistory = some v → 1 ≤ v) :
    h.nextTickFn.records = (h.records ++ [h.nextState]).drop
        ((h.records.length + 1) - minN h.maxHistory (h.records.length + 1)) := by
  have ht0 : ¬ h.tick = 0 := by omega
  have hlen : (h.records ++ [h.nextState]).length = h.records.length + 1 := by simp
  unfold HistoryManager.nextTickFn HistoryManager.beginTick
  simp only [ht0, if_false, hsrc, ite_self]
  rw [evict_eq_drop h.maxHistory _ hmax, hlen]

theorem minN_pos (mh : Option Int) (n : Nat) (hn : 1 ≤ n)
    (hmax : ∀ v, mh = some v → 1 ≤ v) : 1 ≤ minN mh n := by
  cases mh with
  | none => simpa [minN] using hn
  | some l =>
    have := hmax l rfl
    simp only [minN]
    omega

theorem currentState_nextTickFn_no_input (h : HistoryManager kappa)
    (hsrc : h.inputSource = none) (htick : 1 ≤ h.tick)
    (hmax : ∀ v, h.maxHistory = some v → 1 ≤ v) :
    h.nextTickFn.currentState = h.nextState := by
  have hrec := nextTickFn_records_no_input h hsrc htick hmax
  have hm : 1 ≤ minN h.maxHistory (h.records.length + 1) :=
    minN_pos h.maxHistory (h.records.length + 1) (by omega) hmax
  have hd : (h.records.length + 1) - minN h.maxHistory (h.records.length + 1)
      ≤ h.records.length := by omega
  rw [HistoryManager.currentState, hrec, getLast?_drop_concat _ _ _ hd]
  rfl

theorem evict_ne_nil {α : Type} (mh : Option Int) (l : List α) (hl : l ≠ [])
    (hmax : ∀ v, mh = some v → 1 ≤ v) : evict mh l ≠ [] := by
  cases mh with
  | none => simpa [evict] using hl
  | some lv =>
    have h1 := hmax lv rfl
    have hlen : 1 ≤ l.length := List.length_pos.mpr hl
    simp only [evict]
    by_cases hlt : lv < (l.length : Int)
    · rw [if_pos hlt]
      intro he
      have := congrArg List.length he
      rw [List.length_drop] at this
      simp only [List.length_nil] at this
      omega
    · rw [if_neg hlt]
      exact hl

theorem beginTick_records_cases (h : HistoryManager kappa) (pc : Bool) :
    (h.beginTick pc).records = h.records ∨
    ∃ f, (h.beginTick pc).records = modifyLast f h.records := by
  cases hs : h.inputSource with
  | none =>
    left
    cases pc <;> simp [HistoryManager.beginTick, hs]
  | some src =>
    cases pc with
    | false =>
      left
      simp [HistoryManager.beginTick, hs]
    | true =>
      right
      refine ⟨fun r => jsAssign r
        (jsAssign (jsAssign emptyObj h.previousInputs) (h.collect true)), ?_⟩
      simp [HistoryManager.beginTick, hs]

theorem beginTick_records_ne_nil (h : HistoryManager kappa) (pc : Bool)
    (hne : h.records ≠ []) : (h.beginTick pc).records ≠ [] := by
  rcases beginTick_records_cases h pc with he | ⟨f, he⟩
  · rwa [he]
  · rw [he]
    exact modifyLast_ne_nil f h.records hne

theorem beginTick_maxHistory (h : HistoryManager kappa) (pc : Bool) :
    (h.beginTick pc).maxHistory = h.maxHistory := rfl

theorem nextTickFn_records_ne_nil (h : HistoryManager kappa)
    (hmax : ∀ v, h.maxHistory = some v → 1 ≤ v) : h.nextTickFn.records ≠ [] := by
  unfold HistoryManager.nextTickFn
  apply beginTick_records_ne_nil
  exact evict_ne_nil h.maxHistory _ (by simp) hmax

theorem rewindKept_ne_nil (h : HistoryManager kappa) (targetN : Nat)
    (mutate : Option (Obj kappa)) : rewindKept h targetN mutate ≠ [] := by
  unfold rewindKept
  have h1 : (if (h.records.take targetN).isEmpty then [jsAssign emptyObj h.initialState]
      else h.records.take targetN) ≠ [] := by
    by_cases he : (h.records.take targetN).isEmpty
    · simp [he]
    · rw [if_neg he]
      intro hx
      apply he
      rw [hx]
      rfl
  have h2 : (match mutate with
      | some mu => modifyLast (fun r => jsAssign r mu)
          (if (h.records.take targetN).isEmpty then [jsAssign emptyObj h.initialState]
            else h.records.take targetN)
      | none => (if (h.records.take targetN).isEmpty
          then [jsAssign emptyObj h.initialState] else h.records.take targetN)) ≠ [] := by
    cases mutate with
    | none => exact h1
    | some mu => exact modifyLast_ne_nil _ _ h1
  cases h.inputSource with
  | none => exact h2
  | some src => exact modifyLast_ne_nil _ _ h2

theorem rewindFn_records_ne_nil (h : HistoryManager kappa) (t0 : Option Int)
    (mutate : Option (Obj kappa)) (hne : h.records ≠ []) :
    (h.rewindFn t0 mutate).records ≠ [] := by
  unfold HistoryManager.rewindFn
  split
  · exact rewindKept_ne_nil h _ mutate
  · exact hne

theorem rewindFn_maxHistory (h : HistoryManager kappa) (t0 : Option Int)
    (mutate : Option (Obj kappa)) :
    (h.rewindFn t0 mutate).maxHistory = h.maxHistory := by
  unfold HistoryManager.rewindFn
  split <;> rfl

theorem jsSpliceRemain_ne_nil {α : Type} (xs : List α) (dc : Int) (hne : xs ≠ []) :
    jsSpliceRemain xs 1 dc ≠ [] := by
  cases xs with
  | nil => exact absurd rfl hne
  | cons a t =>
    unfold jsSpliceRemain
    have hmin : min 1 (a :: t).length = 1 := by simp
    rw [hmin]
    simp

theorem limitRecords_ne_nil (h : HistoryManager kappa) (l : Option Int)
    (hne : h.records ≠ []) : limitRecords h l ≠ [] := by
  unfold limitRecords
  split
  · split
    · exact jsSpliceRemain_ne_nil h.records _ hne
    · exact hne
  · exact hne

theorem setLimit_records_ne_nil (h : HistoryManager kappa) (l0 : Option Int)
    (hne : h.records ≠ []) : (h.setLimit l0).records ≠ [] :=
  limitRecords_ne_nil h (coerceLimit l0) hne

theorem coerceLimit_ge_one (l0 : Option Int) :
    ∀ v, coerceLimit l0 = some v → 1 ≤ v := by
  intro v hv
  unfold coerceLimit at hv
  by_cases hlt : numLt l0 (some 1) = true
  · rw [if_pos hlt] at hv
    simp only [Option.some.injEq] at hv
    omega
  · rw [if_neg hlt] at hv
    cases l0 with
    | none => simp at hv
    | some w =>
      simp only [Option.some.injEq] at hv
      simp only [Bool.not_eq_true] at hlt
      simp only [numLt, decide_eq_false_iff_not, not_lt] at hlt
      omega

theorem setLimit_maxHistory_ge_one (h : HistoryManager kappa) (l0 : Option Int) :
    ∀ v, (h.setLimit l0).maxHistory = some v → 1 ≤ v :=
  coerceLimit_ge_one l0

/-- The invariant backing C10: the record list is never empty and the
    retention limit is never below one. -/
def HMInv (h : HistoryManager kappa) : Prop :=
  h.records ≠ [] ∧ (∀ v, h.maxHistory = some v → 1 ≤ v)

theorem hmInv_of_reachable (h : HistoryManager kappa) (hr : HMReachable h) :
    HMInv h := by
  induction hr with
  | construct init inputs =>
    constructor
    · exact nextTickFn_records_ne_nil _ (by intro v hv; simp at hv)
    · intro v hv
      simp [HistoryManager.mkNew, nextTickFn_maxHistory] at hv
  | mutate h p _ ih =>
    exact ⟨by rw [mutateTickFn_records]; exact ih.1, fun v hv => ih.2 v hv⟩
  | advance h _ ih =>
    exact ⟨nextTickFn_records_ne_nil h ih.2,
      fun v hv => ih.2 v (by rwa [nextTickFn_maxHistory] at hv)⟩
  | rew h t mu _ ih =>
    exact ⟨rewindFn_records_ne_nil h t mu ih.1,
      fun v hv => ih.2 v (by rwa [rewindFn_maxHistory] at hv)⟩
  | clr h _ ih =>
    refine ⟨?_, ?_⟩
    · show (h.rewindFn (some 1) none).records ≠ []
      exact rewindFn_records_ne_nil h _ _ ih.1
    · intro v hv
      have hv' : (h.rewindFn (some 1) none).maxHistory = some v := hv
      rw [rewindFn_maxHistory] at hv'
      exact ih.2 v hv'
  | lim h l _ ih =>
    exact ⟨setLimit_records_ne_nil h l ih.1, setLimit_maxHistory_ge_one h l⟩

theorem minN_minN (mh : Option Int) (a b : Nat) :
    minN mh (minN mh a + b) = minN mh (a + b) := by
  cases mh with
  | none => rfl
  | some v =>
    simp only [minN]
    omega

theorem minN_le (mh : Option Int) (n : Nat) : minN mh n ≤ n := by
  cases mh with
  | none => exact le_refl n
  | some v =>
    simp only [minN]
    omega

theorem commitTrace_cons (h : HistoryManager kappa) (u : List (Obj kappa))
    (rest : List (List (Obj kappa))) :
    commitTrace h (u :: rest) =
      (applyUpdates h u).nextState :: commitTrace (commitStep h u) rest := rfl

theorem commitStep_fields (h : HistoryManager kappa) (u : List (Obj kappa))
    (hsrc : h.inputSource = none) (htick : 1 ≤ h.tick)
    (hmax : ∀ v, h.maxHistory = some v → 1 ≤ v) :
    (commitStep h u).records = (h.records ++ [(applyUpdates h u).nextState]).drop
        ((h.records.length + 1) - minN h.maxHistory (h.records.length + 1)) ∧
    (commitStep h u).tick = h.tick + 1 ∧
    (commitStep h u).maxHistory = h.maxHistory ∧
    (commitStep h u).inputSource = none := by
  have h1 := nextTickFn_records_no_input (applyUpdates h u)
    (by rw [applyUpdates_inputSource, hsrc])
    (by rw [applyUpdates_tick]; exact htick)
    (by rw [applyUpdates_maxHistory]; exact hmax)
  rw [applyUpdates_records, applyUpdates_maxHistory] at h1
  refine ⟨h1, ?_, ?_, ?_⟩
  · rw [commitStep, nextTickFn_tick, applyUpdates_tick]
  · rw [commitStep, nextTickFn_maxHistory, applyUpdates_maxHistory]
  · rw [commitStep, nextTickFn_inputSource, applyUpdates_inputSource, hsrc]

theorem commitRun_spec (l : List (List (Obj kappa))) :
    ∀ h : HistoryManager kappa, h.inputSource = none → 1 ≤ h.tick →
    (∀ v, h.maxHistory = some v → 1 ≤ v) →
    minN h.maxHistory h.records.length = h.records.length →
    (commitRun h l).tick = h.tick + l.length ∧
    (commitRun h l).maxHistory = h.maxHistory ∧
    (commitRun h l).records = (h.records ++ commitTrace h l).drop
        ((h.records.length + l.length) - minN h.maxHistory (h.records.length + l.length)) ∧
    (commitRun h l).records.length = minN h.maxHistory (h.records.length + l.length) := by
  induction l with
  | nil =>
    intro h hsrc htick hmax hfit
    refine ⟨by simp [commitRun], by simp [commitRun], ?_, ?_⟩
    · simp [commitRun, commitTrace, hfit]
    · simp [commitRun, hfit]
  | cons u rest ih =>
    intro h hsrc htick hmax hfit
    obtain ⟨hrec, htk, hmh, hsrc'⟩ := commitStep_fields h u hsrc htick hmax
    have hlen1 : (h.records ++ [(applyUpdates h u).nextState]).length
        = h.records.length + 1 := by simp
    have hm1le : minN h.maxHistory (h.records.length + 1) ≤ h.records.length + 1 :=
      minN_le _ _
    have hlen' : (commitStep h u).records.length
        = minN h.maxHistory (h.records.length + 1) := by
      rw [hrec, List.length_drop, hlen1]
      omega
    have hmax' : ∀ v, (commitStep h u).maxHistory = some v → 1 ≤ v := by
      rw [hmh]
      exact hmax
    have hfit' : minN (commitStep h u).maxHistory (commitStep h u).records.length
        = (commitStep h u).records.length := by
      rw [hmh, hlen']
      cases hc : h.maxHistory with
      | none => rfl
      | some v =>
        simp only [minN]
        omega
    have hrun : commitRun h (u :: rest) = commitRun (commitStep h u) rest := rfl
    obtain ⟨ih1, ih2, ih3, ih4⟩ := ih (commitStep h u) hsrc'
      (by rw [htk]; omega) hmax' hfit'
    have hminc : minN h.maxHistory (minN h.maxHistory (h.records.length + 1) + rest.length)
        = minN h.maxHistory (h.records.length + 1 + rest.length) :=
      minN_minN h.maxHistory (h.records.length + 1) rest.length
    refine ⟨?_, ?_, ?_, ?_⟩
    · rw [hrun, ih1, htk, List.length_cons]
      omega
    · rw [hrun, ih2, hmh]
    · rw [hrun, ih3, hlen', hmh, hrec, commitTrace_cons]
      have hdle : (h.records.length + 1) - minN h.maxHistory (h.records.length + 1)
          ≤ (h.records ++ [(applyUpdates h u).nextState]).length := by
        rw [hlen1]
        omega
      rw [← List.drop_append_of_le_length hdle, List.drop_drop]
      have hassoc : h.records ++ [(applyUpdates h u).nextState]
            ++ commitTrace (commitStep h u) rest
          = h.records ++ ((applyUpdates h u).nextState
            :: commitTrace (commitStep h u) rest) := by
        rw [List.append_assoc]
        rfl
      rw [hassoc]
      congr 1
      rw [hminc, List.length_cons]
      have hco : h.records.length + (rest.length + 1)
          = h.records.length + 1 + rest.length := by omega
      rw [hco]
      have h5 : minN h.maxHistory (h.records.length + 1 + rest.length)
          ≤ minN h.maxHistory (h.records.length + 1) + rest.length := by
        rw [← hminc]
        exact minN_le _ _
      omega
    · rw [hrun, ih4, hlen', hmh, hminc, List.length_cons]
      have : h.records.length + 1 + rest.length = h.records.length + (rest.length + 1) := by
        omega
      rw [this]

theorem stepLoop_nil (ct : Nat) (m : StateMachine kappa) (fired : Nat) :
    stepLoop ct m fired [] = (m, fired, false) := rfl

theorem stepLoop_abort (ct : Nat) (m : StateMachine kappa) (fired : Nat)
    (r : Rule kappa) (rest : List (Rule kappa))
    (htick : m.history.tick ≠ ct) (hexit : m.exitState = none) :
    stepLoop ct m fired (r :: rest) = (m, max 1 fired, true) := by
  have hb : (m.history.tick != ct && m.exitState.isNone) = true := by
    rw [hexit]
    simp [htick]
  unfold stepLoop
  rw [if_pos hb]

theorem stepLoop_quiet (ct : Nat) (rules : List (Rule kappa)) :
    ∀ (m : StateMachine kappa) (fired : Nat), m.exitState = none →
    m.history.tick = ct →
    (∀ r ∈ rules, r.cond m.history.currentState m.history.tick = false) →
    stepLoop ct m fired rules = (m, fired, false) := by
  induction rules with
  | nil => intro m fired _ _ _; rfl
  | cons r rest ih =>
    intro m fired hexit htick hq
    have hb : (m.history.tick != ct && m.exitState.isNone) = false := by
      rw [htick]
      simp
    have hcond : r.cond m.history.currentState m.history.tick = false :=
      hq r (by simp)
    unfold stepLoop
    rw [if_neg (by rw [hb]; simp), if_neg (by rw [hexit]; simp), if_neg (by rw [hcond]; simp)]
    exact ih m fired hexit htick (fun s hs => hq s (by simp [hs]))

theorem stepLoop_pure (ct : Nat) (rules : List (Rule kappa)) :
    ∀ (m : StateMachine kappa) (fired : Nat), m.exitState = none →
    m.history.tick = ct →
    (∀ r ∈ rules, ∀ s, r.calls s = []) →
    stepLoop ct m fired rules =
      ({ m with history := applyUpdates m.history (firedUpdates m.history.currentState m.history.tick rules) }, fired + rules.countP (fun r => r.cond m.history.currentState m.history.tick), false) := by
  induction rules with
  | nil =>
    intro m fired _ _ _
    simp [stepLoop, applyUpdates, firedUpdates]
  | cons r rest ih =>
    intro m fired hexit htick hpure
    have hb : (m.history.tick != ct && m.exitState.isNone) = false := by
      rw [htick]
      simp
    have hcalls : r.calls m.history.currentState = [] := hpure r (by simp) _
    have hpure' : ∀ s ∈ rest, ∀ x, s.calls x = [] := fun s hs => hpure s (by simp [hs])
    unfold stepLoop
    rw [if_neg (by rw [hb]; simp), if_neg (by rw [hexit]; simp)]
    cases hcond : r.cond m.history.currentState m.history.tick with
    | false =>
      rw [if_neg (by simp)]
      rw [ih m fired hexit htick hpure']
      have h1 : firedUpdates m.history.currentState m.history.tick (r :: rest)
          = firedUpdates m.history.currentState m.history.tick rest := by
        simp [firedUpdates, hcond]
      have h2 : (r :: rest).countP (fun s => s.cond m.history.currentState m.history.tick)
          = rest.countP (fun s => s.cond m.history.currentState m.history.tick) := by
        rw [List.countP_cons_of_neg]
        simp [hcond]
      rw [h1, h2]
    | true =>
      rw [if_pos (by simp)]
      simp only [hcalls]
      cases hret : r.ret m.history.currentState with
      | none =>
        have hrec := ih m (fired + 1) hexit htick hpure'
        simp only [applyCalls, List.foldl_nil, hret]
        rw [hrec]
        have h1 : firedUpdates m.history.currentState m.history.tick (r :: rest)
            = firedUpdates m.history.currentState m.history.tick rest := by
          simp [firedUpdates, hcond, hret]
        have h2 : fired + (r :: rest).countP
              (fun s => s.cond m.history.currentState m.history.tick)
            = (fired + 1) + rest.countP
              (fun s => s.cond m.history.currentState m.history.tick) := by
          rw [List.countP_cons_of_pos _ _ (by rw [hcond])]
          omega
        rw [h1, h2]
      | some p =>
        have hexit2 : ({ m with history := m.history.mutateTickFn p }
            : StateMachine kappa).exitState = none := hexit
        have htick2 : ({ m with history := m.history.mutateTickFn p }
            : StateMachine kappa).history.tick = ct := htick
        have hrec := ih { m with history := m.history.mutateTickFn p } (fired + 1)
          hexit2 htick2 hpure'
        simp only [applyCalls, List.foldl_nil, hret]
        rw [hrec]
        have hcur : ({ m with history := m.history.mutateTickFn p }
              : StateMachine kappa).history.currentState
            = m.history.currentState := rfl
        rw [hcur]
        have h1 : firedUpdates m.history.currentState m.history.tick (r :: rest)
            = p :: firedUpdates m.history.currentState m.history.tick rest := by
          simp [firedUpdates, hcond, hret]
        have h2 : fired + (r :: rest).countP
              (fun s => s.cond m.history.currentState m.history.tick)
            = (fired + 1) + rest.countP
              (fun s => s.cond m.history.currentState m.history.tick) := by
          rw [List.countP_cons_of_pos _ _ (by rw [hcond])]
          omega
        rw [h1, h2]
        rfl

theorem withPriority_cond (r : Rule kappa) (p : Int) :
    (r.withPriority p).cond = r.cond := rfl

theorem applyCall_setProg (P : List (Rule kappa)) (m : StateMachine kappa)
    (c : MachineCall kappa) :
    applyCall (setProg P m) c = setProg P (applyCall m c) := by
  cases c with
  | callExit a => cases a <;> rfl
  | callRewind t mu => rfl

theorem applyCalls_setProg (P : List (Rule kappa)) (cs : List (MachineCall kappa)) :
    ∀ m : StateMachine kappa,
    applyCalls (setProg P m) cs = setProg P (applyCalls m cs) := by
  induction cs with
  | nil => intro m; rfl
  | cons c t ih =>
    intro m
    have h1 : applyCalls (setProg P m) (c :: t)
        = applyCalls (applyCall (setProg P m) c) t := rfl
    have h2 : applyCalls m (c :: t) = applyCalls (applyCall m c) t := rfl
    rw [h1, h2, applyCall_setProg, ih]

theorem stepLoop_setProg (ct : Nat) (P : List (Rule kappa)) (f : Rule kappa → Int)
    (rules : List (Rule kappa)) : ∀ (m : StateMachine kappa) (fired : Nat),
    stepLoop ct (setProg P m) fired (rules.map (fun r => r.withPriority (f r)))
      = (setProg P (stepLoop ct m fired rules).1, (stepLoop ct m fired rules).2) := by
  induction rules with
  | nil => intro m fired; rfl
  | cons r rest ih =>
    intro m fired
    rw [List.map_cons]
    show stepLoop ct (setProg P m) fired (r.withPriority (f r) :: rest.map _)
      = _
    unfold stepLoop
    by_cases hb : ((setProg P m).history.tick != ct && (setProg P m).exitState.isNone)
        = true
    · have hb2 : (m.history.tick != ct && m.exitState.isNone) = true := hb
      rw [if_pos hb, if_pos hb2]
    · have hb2 : ¬ (m.history.tick != ct && m.exitState.isNone) = true := hb
      rw [if_neg hb, if_neg hb2]
      by_cases he : (setProg P m).exitState.isSome = true
      · have he2 : m.exitState.isSome = true := he
        rw [if_pos he, if_pos he2]
      · have he2 : ¬ m.exitState.isSome = true := he
        rw [if_neg he, if_neg he2]
        by_cases hc : (r.withPriority (f r)).cond (setProg P m).history.currentState
            (setProg P m).history.tick = true
        · have hc2 : r.cond m.history.currentState m.history.tick = true := hc
          rw [if_pos hc, if_pos hc2]
          have hcalls : (r.withPriority (f r)).calls = r.calls := rfl
          have hret : (r.withPriority (f r)).ret = r.ret := rfl
          have hcs : (setProg P m).history.currentState = m.history.currentState := rfl
          simp only [hcalls, hret, hcs, applyCalls_setProg]
          cases hr : r.ret m.history.currentState with
          | none => exact ih (applyCalls m (r.calls m.history.currentState)) (fired + 1)
          | some p => exact ih { applyCalls m (r.calls m.history.currentState) with history := (applyCalls m (r.calls m.history.currentState)).history.mutateTickFn p } (fired + 1)
        · have hc2 : ¬ r.cond m.history.currentState m.history.tick = true := hc
          rw [if_neg hc, if_neg hc2]
          exact ih m fired

theorem stepPre_setProg (P : List (Rule kappa)) (m : StateMachine kappa) :
    stepPre (setProg P m) = setProg P (stepPre m) := by
  unfold stepPre
  by_cases h1 : m.history.tick < 1
  · rw [if_pos (show (setProg P m).history.tick < 1 from h1), if_pos h1]
    rfl
  · rw [if_neg (show ¬ (setProg P m).history.tick < 1 from h1), if_neg h1]

theorem stepPre_program (m : StateMachine kappa) :
    (stepPre m).program = m.program := by
  unfold stepPre
  split <;> rfl

theorem stepPre_history (m : StateMachine kappa) :
    (stepPre m).history = if m.history.tick < 1 then m.history.nextTickFn
      else m.history := by
  unfold stepPre
  split <;> simp_all

theorem stepPost_setProg (P : List (Rule kappa)) (mp : StateMachine kappa)
    (c : Nat) (b : Bool) :
    (stepPost (setProg P mp, c, b)).1.history = (stepPost (mp, c, b)).1.history ∧
    (stepPost (setProg P mp, c, b)).1.exitState = (stepPost (mp, c, b)).1.exitState ∧
    (stepPost (setProg P mp, c, b)).2 = (stepPost (mp, c, b)).2 := by
  cases b with
  | true => exact ⟨rfl, rfl, rfl⟩
  | false =>
    cases c with
    | zero => exact ⟨rfl, rfl, rfl⟩
    | succ n => exact ⟨rfl, rfl, rfl⟩

theorem stepFn_setProg (m : StateMachine kappa) (f : Rule kappa → Int) :
    (m.withPriorities f).stepFn.1.history = m.stepFn.1.history ∧
    (m.withPriorities f).stepFn.1.exitState = m.stepFn.1.exitState ∧
    (m.withPriorities f).stepFn.2 = m.stepFn.2 := by
  have h0 : m.withPriorities f
      = setProg (m.program.map (fun r => r.withPriority (f r))) m := rfl
  rw [h0]
  unfold StateMachine.stepFn
  rw [stepPre_setProg]
  have hh : (setProg (m.program.map (fun r => r.withPriority (f r)))
      (stepPre m)).history = (stepPre m).history := rfl
  have hp : (setProg (m.program.map (fun r => r.withPriority (f r)))
        (stepPre m)).program
      = (stepPre m).program.map (fun r => r.withPriority (f r)) := by
    rw [stepPre_program]
    rfl
  rw [hh, hp, stepLoop_setProg]
  rcases stepLoop (stepPre m).history.tick (stepPre m) 0 (stepPre m).program
    with ⟨m', c, b⟩
  exact stepPost_setProg _ m' c b

theorem rewindFn_tick_lt (h : HistoryManager kappa) (t0 : Option Int)
    (mu : Option (Obj kappa)) (hne : h.rewindFn t0 mu ≠ h) :
    (h.rewindFn t0 mu).tick < h.tick := by
  unfold HistoryManager.rewindFn at hne ⊢
  by_cases hc : 0 ≤ rewindTarget h t0 ∧ (rewindTarget h t0).toNat < h.records.length
  · rw [if_pos hc]
    have hg : (1 : Int) ≤ rewindT h t0 := le_max_left 1 _
    have h2 : (0 : Int) ≤ (h.tick : Int) - rewindT h t0 - 1 := by
      have := hc.1
      unfold rewindTarget at this
      exact this
    show (rewindT h t0).toNat < h.tick
    omega
  · rw [if_neg hc] at hne
    exact absurd rfl hne

theorem rewindFn_noop (h : HistoryManager kappa) (targ : Int) (mu : Option (Obj kappa))
    (hwin : targ < (h.tick : Int) - h.records.length)
    (hfar : h.records.length + 2 ≤ h.tick) :
    h.rewindFn (some targ) mu = h := by
  have ht : rewindT h (some targ) = max 1 targ := by
    show max 1 (min ((h.tick : Int) - h.records.length) targ) = max 1 targ
    rw [min_eq_right (le_of_lt hwin)]
  unfold HistoryManager.rewindFn
  rw [if_neg]
  intro hcon
  obtain ⟨h1, h2⟩ := hcon
  unfold rewindTarget at h1 h2
  rw [ht] at h1 h2
  have hm : max 1 targ ≤ (h.tick : Int) - h.records.length - 1 := by
    rcases le_or_lt targ 1 with hle | hlt
    · rw [max_eq_left hle]
      omega
    · rw [max_eq_right (le_of_lt hlt)]
      omega
  omega

theorem setLimit_trim_spec (h : HistoryManager kappa) (lv : Int) (h1 : 1 ≤ lv)
    (hlt : numLt (some lv) h.maxHistory = true) (hlen : lv.toNat < h.records.length) :
    (h.setLimit (some lv)).maxHistory = some lv ∧
    (h.setLimit (some lv)).records
      = h.records.take 1 ++ h.records.drop (1 + (h.records.length - lv.toNat)) ∧
    (h.setLimit (some lv)).records.length = lv.toNat := by
  have hn1 : numLt (some lv) (some 1) = false := by
    simp only [numLt, decide_eq_false_iff_not, not_lt]
    omega
  have hce : coerceLimit (some lv) = some lv := by
    unfold coerceLimit
    rw [if_neg (by rw [hn1]; simp)]
  have hlen1 : 1 ≤ h.records.length := by omega
  unfold HistoryManager.setLimit
  rw [hce]
  unfold limitRecords
  rw [if_pos hlt]
  refine ⟨rfl, ?_, ?_⟩
  · show jsSpliceRemain h.records 1 ((h.records.length : Int) - lv) = _
    unfold jsSpliceRemain
    have hs : min 1 h.records.length = 1 := by omega
    rw [hs]
    have hd : (min ((h.records.length : Int) - lv)
          ((h.records.length : Int) - ((1 : Nat) : Int))).toNat
        = h.records.length - lv.toNat := by
      push_cast
      omega
    rw [hd]
  · show (jsSpliceRemain h.records 1 ((h.records.length : Int) - lv)).length = lv.toNat
    unfold jsSpliceRemain
    have hs : min 1 h.records.length = 1 := by omega
    rw [hs]
    have hd : (min ((h.records.length : Int) - lv)
          ((h.records.length : Int) - ((1 : Nat) : Int))).toNat
        = h.records.length - lv.toNat := by
      push_cast
      omega
    rw [hd]
    rw [List.length_append, List.length_take, List.length_drop]
    omega

theorem collectInputs_force_true (src : kappa → Option Int)
    (maps : List (InputMapping kappa)) (prev : Obj kappa) (t1 t2 : Nat)
    (c1 c2 : Obj kappa) :
    collectInputs (some src) maps prev t1 c1 true
      = collectInputs (some src) maps prev t2 c2 true := rfl

theorem getLast?_evict {α : Type} (mh : Option Int) (A : List α) (x : α)
    (hmax : ∀ v, mh = some v → 1 ≤ v) :
    (evict mh (A ++ [x])).getLast? = some x := by
  rw [evict_eq_drop _ _ hmax]
  have hlen : (A ++ [x]).length = A.length + 1 := by simp
  rw [hlen]
  apply getLast?_drop_concat
  have := minN_pos mh (A.length + 1) (by omega) hmax
  omega

theorem currentState_nextTickFn_nopatch (h : HistoryManager kappa)
    (htick : 2 ≤ h.tick) (hmax : ∀ v, h.maxHistory = some v → 1 ≤ v) :
    h.nextTickFn.currentState = h.nextState := by
  have ht0 : ¬ h.tick = 0 := by omega
  have hpc : decide (h.tick ≤ 1) = false := by
    simp only [decide_eq_false_iff_not, not_le]
    omega
  unfold HistoryManager.nextTickFn HistoryManager.beginTick
  simp only [ht0, if_false, hpc, Bool.false_eq_true, reduceIte]
  cases hs : h.inputSource with
  | none =>
    simp only [HistoryManager.currentState]
    rw [getLast?_evict h.maxHistory _ _ hmax]
    rfl
  | some src =>
    simp only [HistoryManager.currentState]
    rw [getLast?_evict h.maxHistory _ _ hmax]
    rfl

theorem currentState_nextTickFn_patch (h : HistoryManager kappa)
    (src : kappa → Option Int) (hsrc : h.inputSource = some src) (ht1 : h.tick = 1)
    (hmax : ∀ v, h.maxHistory = some v → 1 ≤ v) :
    h.nextTickFn.currentState = jsAssign h.nextState
      (jsAssign (jsAssign emptyObj h.previousInputs)
        (collectInputs (some src) h.inputMappings h.previousInputs 2 emptyObj true)) := by
  have ht0 : ¬ h.tick = 0 := by omega
  have hpc : decide (h.tick ≤ 1) = true := by
    simp only [decide_eq_true_eq]
    omega
  unfold HistoryManager.nextTickFn HistoryManager.beginTick
  simp only [ht0, if_false, hpc, if_true, hsrc, reduceIte]
  simp only [HistoryManager.currentState]
  rw [modifyLast_getLast?]
  rw [getLast?_evict h.maxHistory _ _ hmax]
  simp only [Option.map_some', Option.getD_some]
  congr 2

end When

namespace When

variable {kappa : Type} [DecidableEq kappa]

theorem stepPost_history_false (mp : StateMachine kappa) (c : Nat) :
    (stepPost (mp, c, false)).1.history = mp.history.nextTickFn := by
  cases c <;> rfl

/-! ### The claims -/

/-- C1: when several rules fire in one tick and return updates for the
    same field, the value committed for that field is the one written by
    the rule evaluated last in that tick's evaluation order — updates are
    merged into the next-state buffer in rule-evaluation order and the
    final write per field persists into the committed record. -/
theorem claim_C1_conflict_last_writer (m : StateMachine kappa)
    (hexit : m.exitState = none) (htick : 1 ≤ m.history.tick)
    (hsrc : m.history.inputSource = none) (hmaps : m.history.inputMappings = [])
    (hmax : ∀ v, m.history.maxHistory = some v → 1 ≤ v)
    (hpure : ∀ r ∈ m.program, ∀ s, r.calls s = [])
    (k : kappa) (v : Int)
    (hlast : ((firedUpdates m.history.currentState m.history.tick m.program).filterMap
        (fun p => p k)).getLast? = some v) :
    m.stepFn.1.history.currentState k = some v := by
  have hpre : stepPre m = m := by
    unfold stepPre
    rw [if_neg (by omega)]
  unfold StateMachine.stepFn
  rw [hpre]
  rw [stepLoop_pure m.history.tick m.program m 0 hexit rfl hpure]
  rw [stepPost_history_false]
  rw [show ({ m with history := applyUpdates m.history (firedUpdates m.history.currentState m.history.tick m.program) } : StateMachine kappa).history = applyUpdates m.history (firedUpdates m.history.currentState m.history.tick m.program) from rfl]
  rw [currentState_nextTickFn_no_input _
    (by rw [applyUpdates_inputSource]; exact hsrc)
    (by rw [applyUpdates_tick]; exact htick)
    (by rw [applyUpdates_maxHistory]; exact hmax)]
  rw [applyUpdates_nextState_of_no_maps _ _ hmaps k, hlast]

/-- Witness for C1 at a concrete machine: two always-firing rules write
    field 0 with 1 then 2 in registration order; the committed value is
    the last writer's 2. -/
theorem claim_C1_conflict_last_writer_witness :
    machTwoWriters.stepFn.1.history.currentState 0 = some 2 := by
  refine claim_C1_conflict_last_writer machTwoWriters rfl (by decide) rfl rfl
    (fun v hv => Option.noConfusion hv) ?_ 0 2 (by decide)
  intro r hr s
  rcases List.mem_cons.mp hr with h1 | h2
  · rw [h1]
    rfl
  · rcases List.mem_cons.mp h2 with h3 | h4
    · rw [h3]
      rfl
    · simp at h4

/-- C2 counterexample: the program below registers a priority-0 rule
    before a priority-5 rule, both always firing and writing field 0 (with
    1 and 2 respectively).  Under the claimed descending-priority order
    the priority-5 rule runs first and the committed value would be the
    priority-0 rule's 1 (second conjunct, evaluating the spec-side
    ordering); the implementation evaluates in registration order and
    commits 2 (first conjunct).  The third conjunct shows the priorities
    really differ. -/
theorem claim_C2_priority_counterexample :
    machTwoWriters.stepFn.1.history.currentState 0 = some 2 ∧
    (setProg (orderByPriorityDesc machTwoWriters.program)
        machTwoWriters).stepFn.1.history.currentState 0 = some 1 ∧
    machTwoWriters.program.map (fun r => r.priority) = [0, 5] := by
  exact ⟨by decide, by decide, by decide⟩

/-- C2 amended: `step()` evaluates the program in registration (insertion)
    order and never consults the recorded priority metadata: reassigning
    every rule's priority arbitrarily changes neither the resulting
    history, nor the exit state, nor the fired count — in particular
    priority affects neither whether a rule fires nor the evaluation
    (write-conflict) order. -/
theorem claim_C2_priority_amended (m : StateMachine kappa) (f : Rule kappa → Int) :
    (m.withPriorities f).stepFn.1.history = m.stepFn.1.history ∧
    (m.withPriorities f).stepFn.1.exitState = m.stepFn.1.exitState ∧
    (m.withPriorities f).stepFn.2 = m.stepFn.2 :=
  stepFn_setProg m f

/-- C3 counterexample: a machine whose single rule never fires.  `step()`
    returns 0 as claimed, but the exit state does not remain `undefined`:
    the implementation records the committed state as the exit state. -/
theorem claim_C3_counterexample :
    machQuiescent.stepFn.2 = 0 ∧ machQuiescent.stepFn.1.exitState.isSome = true :=
  ⟨by decide, by decide⟩

/-- C3 amended: a tick in which zero rule conditions fire halts the
    machine: `step()` returns 0, finite-mode `run()` stops after that step
    and returns the last committed state — but the implementation also
    sets the exit state to that committed state even though `exit()` was
    never invoked. -/
theorem claim_C3_amended (m : StateMachine kappa)
    (hexit : m.exitState = none) (htick : 1 ≤ m.history.tick)
    (hfire : ∀ r ∈ m.program, r.cond m.history.currentState m.history.tick = false) :
    m.stepFn.2 = 0 ∧
    m.stepFn.1.exitState = some m.stepFn.1.history.currentState ∧
    StateMachine.runAux false 1 m = some m.stepFn.1 ∧
    StateMachine.runResult m.stepFn.1 = m.stepFn.1.history.currentState := by
  have hpre : stepPre m = m := by
    unfold stepPre
    rw [if_neg (by omega)]
  have hstep : m.stepFn = stepPost (m, 0, false) := by
    unfold StateMachine.stepFn
    rw [hpre, stepLoop_quiet m.history.tick m.program m 0 hexit rfl hfire]
  refine ⟨by rw [hstep]; rfl, by rw [hstep]; rfl, ?_, by rw [hstep]; rfl⟩
  unfold StateMachine.runAux
  rw [if_neg (by rw [hexit]; simp)]
  rw [if_pos ⟨by simp, by rw [hstep]; rfl⟩]

/-- Witness for the amended C3 at the concrete quiescent machine. -/
theorem claim_C3_amended_witness :
    machQuiescent.stepFn.2 = 0 ∧
    machQuiescent.stepFn.1.exitState
      = some machQuiescent.stepFn.1.history.currentState ∧
    StateMachine.runAux false 1 machQuiescent = some machQuiescent.stepFn.1 ∧
    StateMachine.runResult machQuiescent.stepFn.1
      = machQuiescent.stepFn.1.history.currentState := by
  refine claim_C3_amended machQuiescent rfl (by decide) ?_
  intro r hr
  rcases List.mem_cons.mp hr with h1 | h2
  · rw [h1]
    rfl
  · simp at h2

/-- C4: after any sequence of committed ticks from a state whose record
    count fits its limit, the tick counter advances by one per commit, the
    limit is unchanged, and the record list is exactly the most recent
    `minN limit (initial records + commits)` committed states in oldest-
    to-newest order (the front of the full commit trace being evicted at
    commit time); in particular `records.length = minN limit tick` and the
    record count never exceeds a finite limit. -/
theorem claim_C4_eviction (h : HistoryManager kappa) (l : List (List (Obj kappa)))
    (hsrc : h.inputSource = none) (htick : 1 ≤ h.tick)
    (hmax : ∀ v, h.maxHistory = some v → 1 ≤ v)
    (hfit : minN h.maxHistory h.records.length = h.records.length) :
    (commitRun h l).tick = h.tick + l.length ∧
    (commitRun h l).maxHistory = h.maxHistory ∧
    (commitRun h l).records = (h.records ++ commitTrace h l).drop
        ((h.records.length + l.length)
          - minN h.maxHistory (h.records.length + l.length)) ∧
    (commitRun h l).records.length
      = minN h.maxHistory (h.records.length + l.length) :=
  commitRun_spec l h hsrc htick hmax hfit

/-- Witness for C4: limit 2, three commits after the seed record — the
    retained record count is `minN (some 2) 4 = 2`. -/
theorem claim_C4_eviction_witness :
    (commitRun ((HistoryManager.mkNew (objS 0 0) none).setLimit (some 2))
      [[objS 0 1], [objS 0 2], [objS 0 3]]).records.length = 2 := by
  have h4 := claim_C4_eviction
    ((HistoryManager.mkNew (objS 0 0) none).setLimit (some 2))
    [[objS 0 1], [objS 0 2], [objS 0 3]] rfl (by decide)
    (by
      intro v hv
      have h2 := Option.some.inj hv
      omega)
    (by decide)
  rw [h4.2.2.2]
  decide

/-- C5 counterexample: in `machRewind`, the second tick's last rule
    rewinds to tick 1 (which rebuilds the next-state buffer) and then
    returns an update writing 9 to field 3.  Because the rewinding rule is
    the last rule of the pass, the loop ends normally and `_nextTick`
    (advance) still runs for the aborted tick: the post-rewind buffered
    write is committed (field 3 reads 9 in the committed record), the tick
    counter advances from the rewound 1 back to 2 and a new record is
    pushed — contradicting the claim that the aborted tick's buffered
    writes are never committed because advance does not run for it. -/
theorem claim_C5_rewind_counterexample :
    machRewind.stepFn.1.stepFn.1.history.currentState 3 = some 9 ∧
    machRewind.stepFn.1.stepFn.1.history.tick = 2 ∧
    machRewind.stepFn.1.stepFn.1.history.records.length = 2 :=
  ⟨by decide, by decide, by decide⟩

/-- C5 amended: the engine detects a mid-evaluation tick change at the
    next rule boundary — if the tick differs from the tick at entry and no
    exit state is set, the pass returns before evaluating the next rule's
    condition, with the machine unchanged from that point and no commit
    (`advance` runs only when the loop reaches the end of the rule list,
    as the second conjunct's normal fall-through shows); an effective
    rewind always decreases the tick counter, so the comparison detects
    it.  (When the rewinding rule is the last one evaluated there is no
    next rule boundary: the pass falls through and advance runs — see the
    counterexample.) -/
theorem claim_C5_rewind_amended :
    (∀ (ct : Nat) (m : StateMachine kappa) (fired : Nat) (r : Rule kappa)
      (rest : List (Rule kappa)), m.history.tick ≠ ct → m.exitState = none →
      stepLoop ct m fired (r :: rest) = (m, max 1 fired, true)) ∧
    (∀ (ct : Nat) (m : StateMachine kappa) (fired : Nat),
      stepLoop ct m fired [] = (m, fired, false)) ∧
    (∀ (h : HistoryManager kappa) (t0 : Option Int) (mu : Option (Obj kappa)),
      h.rewindFn t0 mu ≠ h → (h.rewindFn t0 mu).tick < h.tick) :=
  ⟨stepLoop_abort, stepLoop_nil, rewindFn_tick_lt⟩

/-- Witness for the amended C5: a concrete aborting loop invocation and a
    concrete effective rewind that decreases the tick. -/
theorem claim_C5_rewind_amended_witness :
    stepLoop 2 machRewind 0 [ruleIncA] = (machRewind, max 1 0, true) ∧
    (histUnbounded.rewindFn (some 1) none).tick < histUnbounded.tick := by
  refine ⟨claim_C5_rewind_amended.1 2 machRewind 0 ruleIncA [] (by decide) rfl, ?_⟩
  exact claim_C5_rewind_amended.2.2 histUnbounded (some 1) none
    (fun he => absurd (congrArg HistoryManager.tick he) (by decide))

/-- C6 counterexample: `histLimited` has limit 2 and tick 5; its retained
    records are the committed states of ticks 4 and 5 (field 0 holding 3
    and 4).  Rewinding to tick 1 — which predates the retained window —
    does not clamp to the oldest record still available: it is a silent
    no-op; the tick counter stays 5 and the records are untouched, whereas
    the claim requires an ordinary rewind to the clamped tick (which would
    decrease the tick counter and truncate records). -/
theorem claim_C6_rewind_clamp_counterexample :
    histLimited.tick = 5 ∧
    histLimited.records.map (fun r => r 0) = [some 3, some 4] ∧
    (histLimited.rewindFn (some 1) none).tick = 5 ∧
    (histLimited.rewindFn (some 1) none).records.map (fun r => r 0)
      = [some 3, some 4] ∧
    (histLimited.rewindFn (some 1) none).nextState 0 = histLimited.nextState 0 :=
  ⟨by decide, by decide, by decide, by decide, by decide⟩

/-- C6 amended: calling `rewind(targetTick, mutate?)` with a target that
    predates the retained history window never raises, but once at least
    `records.length + 2` ticks have elapsed it does not clamp to the
    oldest retained record either: the call is a silent no-op returning
    `false`, leaving the history manager entirely unchanged. -/
theorem claim_C6_rewind_clamp_amended (h : HistoryManager kappa) (targ : Int)
    (mu : Option (Obj kappa)) (hwin : targ < (h.tick : Int) - h.records.length)
    (hfar : h.records.length + 2 ≤ h.tick) :
    h.rewindFn (some targ) mu = h :=
  rewindFn_noop h targ mu hwin hfar

/-- Witness for the amended C6 at the concrete limited history. -/
theorem claim_C6_rewind_clamp_amended_witness :
    histLimited.rewindFn (some 1) none = histLimited :=
  claim_C6_rewind_clamp_amended histLimited 1 none (by decide) (by decide)

end When

namespace When

variable {kappa : Type} [DecidableEq kappa]

set_option linter.unusedSectionVars false

theorem jsAssign_congr_base (a a' b : Obj kappa) (k : kappa) (hk : a k = a' k) :
    jsAssign a b k = jsAssign a' b k := by
  simp only [jsAssign]
  cases b k with
  | some v => rfl
  | none => exact hk

/-- C7: every input-mapped field of an action's returned update is
    dropped before the update is merged into the next-state buffer
    (`_mutateTick` deletes those keys), so the input-mapped fields of the
    record committed by the tick's `advance` do not depend on the buffered
    action updates at all, while every non-input field of the update is
    merged normally (`Object.assign` semantics). -/
theorem claim_C7_input_drop (h : HistoryManager kappa) (p : Obj kappa) (k : kappa)
    (htick : 1 ≤ h.tick) (hmax : ∀ v, h.maxHistory = some v → 1 ≤ v) :
    (isInputKey h k = true →
      (h.mutateTickFn p).nextState k = h.nextState k ∧
      ∀ ups : List (Obj kappa),
        (applyUpdates h ups).nextTickFn.currentState k
          = h.nextTickFn.currentState k) ∧
    (isInputKey h k = false →
      (h.mutateTickFn p).nextState k = jsAssign h.nextState p k) := by
  constructor
  · intro hk
    constructor
    · simp only [HistoryManager.mutateTickFn, jsAssign]
      rw [show (h.inputMappings.any fun im => decide (im.key = k)) = true from hk]
      simp
    · intro ups
      have hns : (applyUpdates h ups).nextState k = h.nextState k :=
        applyUpdates_nextState_of_inputKey h ups k hk
      cases hs : h.inputSource with
      | none =>
        rw [currentState_nextTickFn_no_input (applyUpdates h ups)
            (by rw [applyUpdates_inputSource]; exact hs)
            (by rw [applyUpdates_tick]; exact htick)
            (by rw [applyUpdates_maxHistory]; exact hmax),
          currentState_nextTickFn_no_input h hs htick hmax]
        exact hns
      | some src =>
        rcases Nat.lt_or_ge 1 h.tick with hgt | hle
        · rw [currentState_nextTickFn_nopatch (applyUpdates h ups)
              (by rw [applyUpdates_tick]; omega)
              (by rw [applyUpdates_maxHistory]; exact hmax),
            currentState_nextTickFn_nopatch h (by omega) hmax]
          exact hns
        · have ht1 : h.tick = 1 := by omega
          rw [currentState_nextTickFn_patch (applyUpdates h ups) src
              (by rw [applyUpdates_inputSource]; exact hs)
              (by rw [applyUpdates_tick]; exact ht1)
              (by rw [applyUpdates_maxHistory]; exact hmax),
            currentState_nextTickFn_patch h src hs ht1 hmax]
          rw [applyUpdates_inputMappings, applyUpdates_previousInputs]
          exact jsAssign_congr_base _ _ _ k hns
  · intro hk
    simp only [HistoryManager.mutateTickFn, jsAssign]
    rw [show (h.inputMappings.any fun im => decide (im.key = k)) = false from hk]
    simp

/-- Witness for C7 at a concrete input-mapped history: field 1 is
    input-mapped (polled as 42); an action update writing both fields
    leaves the buffered and committed field 1 unchanged while field 0
    merges normally. -/
theorem claim_C7_input_drop_witness :
    isInputKey histWithInput 1 = true ∧
    (histWithInput.mutateTickFn (obj2 0 5 1 5)).nextState 1
      = histWithInput.nextState 1 ∧
    (applyUpdates histWithInput [obj2 0 5 1 5]).nextTickFn.currentState 1
      = histWithInput.nextTickFn.currentState 1 ∧
    isInputKey histWithInput 0 = false ∧
    (histWithInput.mutateTickFn (obj2 0 5 1 5)).nextState 0
      = jsAssign histWithInput.nextState (obj2 0 5 1 5) 0 := by
  refine ⟨by decide, ?_, ?_, by decide, ?_⟩
  · exact ((claim_C7_input_drop histWithInput (obj2 0 5 1 5) 1 (by decide)
      (fun v hv => Option.noConfusion hv)).1 (by decide)).1
  · exact ((claim_C7_input_drop histWithInput (obj2 0 5 1 5) 1 (by decide)
      (fun v hv => Option.noConfusion hv)).1 (by decide)).2 [obj2 0 5 1 5]
  · exact (claim_C7_input_drop histWithInput (obj2 0 5 1 5) 0 (by decide)
      (fun v hv => Option.noConfusion hv)).2 (by decide)

/-- C8 counterexample: an unbounded history holding the committed states
    0,1,2,3 of field 0 is trimmed by `limit := 2` to `[0, 3]` — the
    oldest record survives and the trim removes from index 1 on, whereas
    trimming "from the oldest end" would retain the newest two records
    `[2, 3]`. -/
theorem claim_C8_limit_counterexample :
    histUnbounded.records.map (fun r => r 0) = [some 0, some 1, some 2, some 3] ∧
    (histUnbounded.setLimit (some 2)).records.map (fun r => r 0)
      = [some 0, some 3] ∧
    (histUnbounded.setLimit (some 2)).maxHistory = some 2 :=
  ⟨by decide, by decide, by decide⟩

/-- C8 amended: assigning a limit below 1 stores exactly 1; the default
    limit is unbounded; assigning a smaller finite limit immediately trims
    the records to exactly `limit` entries — but the trim removes records
    starting at index 1, retaining the oldest record plus the newest
    `limit - 1` records rather than the newest `limit`. -/
theorem claim_C8_limit_amended (h : HistoryManager kappa) (l0 : Option Int)
    (lv : Int) (init : Obj kappa)
    (inputs : Option ((kappa → Option Int) × List (InputMapping kappa))) :
    (numLt l0 (some 1) = true → (h.setLimit l0).maxHistory = some 1) ∧
    (HistoryManager.mkNew init inputs).maxHistory = none ∧
    (1 ≤ lv → numLt (some lv) h.maxHistory = true → lv.toNat < h.records.length →
      (h.setLimit (some lv)).maxHistory = some lv ∧
      (h.setLimit (some lv)).records
        = h.records.take 1 ++ h.records.drop (1 + (h.records.length - lv.toNat)) ∧
      (h.setLimit (some lv)).records.length = lv.toNat) := by
  refine ⟨?_, rfl, fun h1 hlt hlen => setLimit_trim_spec h lv h1 hlt hlen⟩
  intro hlt
  show coerceLimit l0 = some 1
  unfold coerceLimit
  rw [if_pos hlt]

/-- Witness for the amended C8: setting limit 0 stores 1; a fresh history
    is unbounded; trimming the 4-record history to limit 2 leaves exactly
    2 records. -/
theorem claim_C8_limit_amended_witness :
    ((HistoryManager.mkNew (objS 0 0) none).setLimit (some 0)).maxHistory = some 1 ∧
    (HistoryManager.mkNew (objS 0 0) none).maxHistory = none ∧
    (histUnbounded.setLimit (some 2)).records.length = 2 := by
  refine ⟨(claim_C8_limit_amended (HistoryManager.mkNew (objS 0 0) none) (some 0)
      1 (objS 0 0) none).1 (by decide),
    (claim_C8_limit_amended (HistoryManager.mkNew (objS 0 0) none) (some 0)
      1 (objS 0 0) none).2.1, ?_⟩
  exact ((claim_C8_limit_amended histUnbounded (some 2) 2 (objS 0 0) none).2.2
    (by decide) (by decide) (by decide)).2.2

/-- C9 counterexample: after `exit({field1: 1})` the exit state holds 1 at
    field 1; a second call `exit({field1: 2})` is not a no-op — it
    overwrites the exit state, which then holds 2, whereas the claim
    requires the first call's value to persist. -/
theorem claim_C9_exit_counterexample :
    ((machEmpty.exitFn (some (objS 1 1))).exitState.getD emptyObj) 1 = some 1 ∧
    (((machEmpty.exitFn (some (objS 1 1))).exitFn
        (some (objS 1 2))).exitState.getD emptyObj) 1 = some 2 :=
  ⟨by decide, by decide⟩

/-- C9 amended: `exit()` always (re)sets the exit state — to the explicit
    partial state merged over the current snapshot, or to the snapshot
    itself when no argument is given — and it is not sticky: a subsequent
    call behaves exactly as if the earlier call had never happened (the
    last call wins). -/
theorem claim_C9_exit_amended (m : StateMachine kappa) (a1 a2 : Option (Obj kappa))
    (es : Obj kappa) :
    (m.exitFn a1).exitFn a2 = m.exitFn a2 ∧
    (m.exitFn (some es)).exitState = some (jsAssign m.history.currentState es) ∧
    (m.exitFn none).exitState = some m.history.currentState := by
  refine ⟨?_, rfl, rfl⟩
  cases a1 <;> cases a2 <;> rfl

/-- C10: every history-manager state reachable through construction,
    buffered writes, commits, rewinds, clears and limit assignments has a
    non-empty record list, so `currentState` — which reads
    `records[records.length - 1]` — is always a defined record and never
    `undefined`. -/
theorem claim_C10_records_nonempty (h : HistoryManager kappa)
    (hr : HMReachable h) :
    h.records ≠ [] ∧ (h.records.getLast?).isSome = true := by
  have hi := hmInv_of_reachable h hr
  refine ⟨hi.1, ?_⟩
  rw [List.getLast?_isSome]
  exact hi.1

/-- Witness for C10: a freshly constructed history, after a rewind, still
    has a record and a defined current state. -/
theorem claim_C10_records_nonempty_witness :
    ((HistoryManager.mkNew (objS 0 0) none).rewindFn (some 1) none).records ≠ [] ∧
    (((HistoryManager.mkNew (objS 0 0) none).rewindFn
        (some 1) none).records.getLast?).isSome = true :=
  claim_C10_records_nonempty _
    (HMReachable.rew _ (some 1) none (HMReachable.construct (objS 0 0) none))

end When
